import Mathlib

/-!
Shallow embedding of the ggcat execution-manager scheduler
(parallel-processor-rs/src/execution_manager/work_manager.rs) and of the
kmers-transform sub-bucket routing loop
(src/pipeline_common/kmers_transform/mod.rs), together with theorems
checking the natural-language specification of the repository against it.

Modelling conventions:
- Packets are opaque identifiers (Nat).
- An executor address carries its identity and its executor type id; the
  weak form carries the same identifying data, and the success of the
  weak-to-strong upgrade is tracked by the live_addresses field of the
  scheduler state.
- The concurrent maps and queues of the source (DashMap, SegQueue,
  ArrayQueue, HashMap) are association lists and lists; ArrayQueue push
  appends at the back and fails when the capacity is reached, pop takes
  the front.
- Panics (unwrap and assert failures) are Except errors; spin loops take
  an explicit fuel, and a result of none means the loop is still spinning.
- packets_in and packets_out are instrumentation counters that are not in
  the source: packets_in counts every add_input_packet call (external and
  internal) and packets_out counts the packets returned by find_work.
-/

/-- Opaque packet payload identifier. -/
abbrev Packet := Nat

/-- Executor address: identity plus the executor type id used for routing. -/
structure ExecutorAddress where
  id : Nat
  executor_type_id : Nat
deriving DecidableEq, Repr

/-- Weak form of an address: same identifying data, no keep-alive. -/
abbrev WeakExecutorAddress := ExecutorAddress

/-- ExecutorAddress.to_weak drops the keep-alive capability; identity data
is preserved, so in the model it is the identity on the carried record. -/
def ExecutorAddress.to_weak (a : ExecutorAddress) : WeakExecutorAddress := a

/-- The three executor kinds declared by a factory. -/
inductive ExecutorType where
  | SingleUnit
  | MultipleUnits
  | MultipleCommonPacketUnits
deriving DecidableEq, Repr

/-- What the scheduler records per registered executor type: its kind and
whether its instances report can_split. -/
structure ManagerInfo where
  executor_type : ExecutorType
  can_split : Bool
deriving DecidableEq, Repr

/-- A scheduled executor instance: its bound address, its can_split report,
and whether it was produced by the clone_executor path. -/
structure GenericExecutor where
  address : ExecutorAddress
  can_split : Bool
  via_clone : Bool
deriving DecidableEq, Repr

/-- Observable side effects of the scheduler operations. -/
inductive Event where
  | notifyAll
  | notifyOne
  | allocNewGroup (addr : ExecutorAddress) (opener : Option Packet)
  | cloneExecutor (addr : ExecutorAddress)
deriving DecidableEq, Repr

/-- Process-aborting failures (panics) of the source. -/
inductive Panic where
  | unregisteredType
  | unwrapNone
  | doubleRegistration
  | spinStuck
  | assertEmptyFailed
deriving DecidableEq, Repr

/-- Lookup in an association list, first matching key wins. -/
def alistLookup [DecidableEq κ] : List (κ × α) → κ → Option α
  | [], _ => none
  | (k, v) :: rest, k0 => if k = k0 then some v else alistLookup rest k0

/-- Replace the value of the first matching key; identity when absent. -/
def alistUpdate [DecidableEq κ] : List (κ × α) → κ → α → List (κ × α)
  | [], _, _ => []
  | (k, v) :: rest, k0, v0 =>
    if k = k0 then (k, v0) :: rest else (k, v) :: alistUpdate rest k0 v0

/-- Remove every binding of the given key. -/
def alistRemove [DecidableEq κ] (m : List (κ × α)) (k0 : κ) : List (κ × α) :=
  m.filter (fun kv => !decide (kv.1 = k0))

/-- The WorkManager state (work_manager.rs, struct WorkManager), with the
cap field recording the ArrayQueue capacity handed to the queue allocator
and two instrumentation counters. keeper_bound lists the weak addresses
whose executor_keeper slot currently holds a bound instance; live_addresses
lists the weak addresses whose strong upgrade succeeds. -/
structure WorkManager where
  execution_managers_info : List (Nat × ManagerInfo)
  packets_map : List (WeakExecutorAddress × List (ExecutorAddress × Packet))
  duplicable_executors : List WeakExecutorAddress
  waiting_addresses : List (Nat × List ExecutorAddress)
  pending_packets_count : Nat
  keeper_bound : List WeakExecutorAddress
  live_addresses : List WeakExecutorAddress
  cap : Nat
  packets_in : Nat
  packets_out : Nat
deriving DecidableEq, Repr

/-- WorkManager::new. -/
def WorkManager.new (executor_buffer_capacity : Nat) : WorkManager :=
  { execution_managers_info := []
    packets_map := []
    duplicable_executors := []
    waiting_addresses := []
    pending_packets_count := 0
    keeper_bound := []
    live_addresses := []
    cap := executor_buffer_capacity
    packets_in := 0
    packets_out := 0 }

/-- crossbeam ArrayQueue push: append at the back, fail with the rejected
element when the queue already holds cap elements. -/
def arrayQueuePush (cap : Nat) (q : List α) (x : α) : Except α (List α) :=
  if q.length < cap then .ok (q ++ [x]) else .error x

/-- PoolObjectTrait::reset for ArrayQueue (work_manager.rs lines 63-73):
the source pops once and asserts that nothing was returned, so a non-empty
queue makes the assertion fail (process abort). -/
def arrayQueueReset (q : List α) : Except Panic (List α) :=
  match q with
  | [] => .ok []
  | _ :: _ => .error .assertEmptyFailed

/-- Returning a queue to its objects pool: the pool resets the object and
stores it; a reset panic propagates. -/
def poolReturnQueue (pool : List (List α)) (q : List α) :
    Except Panic (List (List α)) :=
  match arrayQueueReset q with
  | .error e => .error e
  | .ok q0 => .ok (q0 :: pool)

/-- WorkManager::add_executors, restricted to the data the scheduler keeps:
it inserts the ManagerInfo for the type id, registers an empty
waiting_addresses queue, and asserts that the type was not yet present. -/
def add_executors (s : WorkManager) (type_id : Nat) (ety : ExecutorType)
    (split : Bool) : Except Panic WorkManager :=
  let not_present := (alistLookup s.execution_managers_info type_id).isNone
  let s1 := { s with
    execution_managers_info :=
      s.execution_managers_info ++ [(type_id, ⟨ety, split⟩)]
    waiting_addresses := s.waiting_addresses ++ [(type_id, [])] }
  if not_present then .ok s1 else .error .doubleRegistration

/-- Replace the input queue stored for a weak address. -/
def set_queue (s : WorkManager) (w : WeakExecutorAddress)
    (q : List (ExecutorAddress × Packet)) : WorkManager :=
  { s with packets_map := alistUpdate s.packets_map w q }

/-- The packets_map.entry(address.to_weak()).or_insert_with(..) step of
add_input_packet: on creation the address is pushed onto the
waiting_addresses queue of its type (unwrap panic when the type is not
registered) and a fresh empty queue is allocated. Returns the state and
the queue found or created. -/
def ensure_entry (s : WorkManager) (a : ExecutorAddress) :
    Except Panic (WorkManager × List (ExecutorAddress × Packet)) :=
  match alistLookup s.packets_map a.to_weak with
  | some q => .ok (s, q)
  | none =>
    match alistLookup s.waiting_addresses a.executor_type_id with
    | none => .error .unregisteredType
    | some wq =>
      .ok ({ s with
        waiting_addresses :=
          alistUpdate s.waiting_addresses a.executor_type_id (wq ++ [a])
        packets_map := s.packets_map ++ [(a.to_weak, [])] }, [])

/-- The retry loop of add_input_packet: acquire or create the entry, try
to push; on queue-full retry. Fuel bounds the spinning; a result of none
means the push is still being retried. -/
def add_loop (a : ExecutorAddress) (p : Packet) :
    Nat → WorkManager → Except Panic (Option (WorkManager × List Event))
  | 0, _ => .ok none
  | fuel + 1, s =>
    match ensure_entry s a with
    | .error e => .error e
    | .ok (s1, q) =>
      match arrayQueuePush s1.cap q (a, p) with
      | .ok q1 => .ok (some (set_queue s1 a.to_weak q1, [Event.notifyAll]))
      | .error _ => add_loop a p fuel s1

/-- WorkManager::add_input_packet (work_manager.rs lines 207-233):
increment pending_packets_count, then loop: acquire or create the input
queue, push the pair, on success notify_all. packets_in counts the call. -/
def add_input_packet (s : WorkManager) (a : ExecutorAddress) (p : Packet)
    (fuel : Nat) : Except Panic (Option (WorkManager × List Event)) :=
  add_loop a p fuel { s with
    pending_packets_count := s.pending_packets_count + 1
    packets_in := s.packets_in + 1 }

/-- WorkManager::get_packet_from_addr (lines 255-266): pop the front pair
of the input queue of the address, keep only the packet. -/
def get_packet_from_addr (s : WorkManager) (addr : ExecutorAddress) :
    Option (Packet × WorkManager) :=
  match alistLookup s.packets_map addr.to_weak with
  | none => none
  | some [] => none
  | some ((_, p) :: rest) => some (p, set_queue s addr.to_weak rest)

/-- The allocate_execution_unit closure (lines 148-192): when the address
has a bound main executor in its executor_keeper, clone_executor is taken
and the initial packet slot is left untouched; otherwise
E::allocate_new_group consumes (takes) the packet slot and a fresh
instance is built. clone_executor yielding an instance is taken from the
spec (the ExecutionManager code is outside work_manager.rs). Returns the
instance, the leftover packet slot, and the emitted events. -/
def allocate_execution_unit (s : WorkManager) (addr : ExecutorAddress)
    (packet : Option Packet) (split : Bool) :
    Option GenericExecutor × Option Packet × List Event :=
  if addr.to_weak ∈ s.keeper_bound then
    (some ⟨addr, split, true⟩, packet, [Event.cloneExecutor addr])
  else
    (some ⟨addr, split, false⟩, none, [Event.allocNewGroup addr packet])

/-- The tail of alloc_executor: if the packet slot is still occupied after
the allocator ran, re-enqueue it through add_input_packet (one push
suffices right after a pop, so fuel 1 is used; a still-spinning push is a
stuck state). -/
def alloc_finish (s : WorkManager) (addr : ExecutorAddress)
    (r : Option GenericExecutor × Option Packet × List Event) :
    Except Panic (Option GenericExecutor × WorkManager × List Event) :=
  match r with
  | (ex, none, evs) => .ok (ex, s, evs)
  | (ex, some p2, evs) =>
    match add_input_packet s addr p2 1 with
    | .error e => .error e
    | .ok none => .error .spinStuck
    | .ok (some (s2, evs2)) => .ok (ex, s2, evs ++ evs2)

/-- WorkManager::alloc_executor (lines 235-253): look up the type info
(unwrap panic when unregistered); for MultipleCommonPacketUnits pop one
packet of the address (returning none when there is none), run the
allocator, and re-enqueue a leftover packet. -/
def alloc_executor (s : WorkManager) (addr : ExecutorAddress) :
    Except Panic (Option GenericExecutor × WorkManager × List Event) :=
  match alistLookup s.execution_managers_info addr.executor_type_id with
  | none => .error .unregisteredType
  | some info =>
    match info.executor_type with
    | .SingleUnit =>
      alloc_finish s addr (allocate_execution_unit s addr none info.can_split)
    | .MultipleUnits =>
      alloc_finish s addr (allocate_execution_unit s addr none info.can_split)
    | .MultipleCommonPacketUnits =>
      match get_packet_from_addr s addr with
      | none => .ok (none, s, [])
      | some (p, s1) =>
        alloc_finish s1 addr
          (allocate_execution_unit s1 addr (some p) info.can_split)

/-- WeakExecutorAddress::get_strong: succeeds while the address is alive. -/
def get_strong (s : WorkManager) (w : WeakExecutorAddress) :
    Option ExecutorAddress :=
  if w ∈ s.live_addresses then some w else none

/-- The duplication loop of find_work (lines 292-314): pop a weak address;
a dead one is dropped; the own address of the worker is pushed back (and
the loop breaks when it is then the only entry); otherwise allocate a new
executor for the address and on success push the weak address back and
return the duplicated executor. Fuel bounds the loop. -/
def duplication_pass :
    Nat → WorkManager → Option GenericExecutor →
    Except Panic (Option GenericExecutor × WorkManager)
  | 0, s, _ => .ok (none, s)
  | fuel + 1, s, last =>
    match s.duplicable_executors with
    | [] => .ok (none, s)
    | w :: rest =>
      let s1 := { s with duplicable_executors := rest }
      match get_strong s1 w with
      | none => duplication_pass fuel s1 last
      | some addr =>
        if (match last with
            | some e => decide (addr = e.address)
            | none => false) then
          let s2 := { s1 with duplicable_executors := rest ++ [w] }
          if s2.duplicable_executors.length = 1 then .ok (none, s2)
          else duplication_pass fuel s2 last
        else
          match alloc_executor s1 addr with
          | .error e => .error e
          | .ok (none, s2, _) => duplication_pass fuel s2 last
          | .ok (some ex, s2, _) =>
            .ok (some ex,
              { s2 with
                duplicable_executors := s2.duplicable_executors ++ [w] })

/-- Pop the first address of the first non-empty per-type waiting queue,
in map iteration order, returning it with the updated queues. -/
def popFirstWaiting :
    List (Nat × List ExecutorAddress) →
    Option (ExecutorAddress × List (Nat × List ExecutorAddress))
  | [] => none
  | (ty, []) :: rest =>
    match popFirstWaiting rest with
    | none => none
    | some (a, rest1) => some (a, (ty, []) :: rest1)
  | (ty, a :: q) :: rest => some (a, (ty, q) :: rest)

/-- The fairness step of find_work (lines 321-344): pop a waiting address,
allocate its executor and unwrap the result (panic when it is none); when
the executor reports can_split, push the weak address onto
duplicable_executors. -/
def fairness_step (s : WorkManager) :
    Except Panic (Option (GenericExecutor × WorkManager)) :=
  match popFirstWaiting s.waiting_addresses with
  | none => .ok none
  | some (a, wl) =>
    let s1 := { s with waiting_addresses := wl }
    match alloc_executor s1 a with
    | .error e => .error e
    | .ok (none, _, _) => .error .unwrapNone
    | .ok (some ex, s2, _) =>
      if ex.can_split then
        .ok (some (ex, { s2 with
          duplicable_executors := s2.duplicable_executors ++ [a.to_weak] }))
      else .ok (some (ex, s2))

/-- Outcome of one iteration of the main scheduling loop of find_work. -/
inductive WorkOutcome where
  | noWork
  | packet (p : Packet)
  | newLast (e : GenericExecutor)
  | idleWait
deriving DecidableEq, Repr

/-- One iteration of the find_work scheduling loop (lines 268-351): the
loop runs only while pending_packets_count is positive; (a) locality: pop
a packet of the last executor address, on a hit decrement
pending_packets_count, notify and return it; (b) otherwise run the
duplication pass; (c) otherwise the fairness step; (d) otherwise wait.
packets_out counts the packet returned on the locality hit. -/
def find_work_iter (dupFuel : Nat) (s : WorkManager)
    (last : Option GenericExecutor) :
    Except Panic (WorkOutcome × WorkManager × List Event) :=
  if s.pending_packets_count = 0 then .ok (.noWork, s, [])
  else
    match (match last with
           | none => none
           | some e => get_packet_from_addr s e.address) with
    | some (p, s1) =>
      .ok (.packet p,
        { s1 with
          pending_packets_count := s1.pending_packets_count - 1
          packets_out := s1.packets_out + 1 },
        [Event.notifyAll])
    | none =>
      match duplication_pass dupFuel s last with
      | .error e => .error e
      | .ok (some ex, s1) => .ok (.newLast ex, s1, [])
      | .ok (none, s1) =>
        match fairness_step s1 with
        | .error e => .error e
        | .ok (some (ex, s2)) => .ok (.newLast ex, s2, [])
        | .ok none => .ok (.idleWait, s1, [])

/-- Modelled from the spec: destruction of a packets_map entry is not in
work_manager.rs (only creation is); the spec states the input queue is
destroyed when its address is drained AND no executor references it.
keeper_bound membership stands for an executor referencing the address. -/
def retire_address (s : WorkManager) (w : WeakExecutorAddress) :
    WorkManager :=
  match alistLookup s.packets_map w with
  | none => s
  | some q =>
    if q = [] ∧ w ∉ s.keeper_bound then
      { s with packets_map := alistRemove s.packets_map w }
    else s

/-- One atomic state change of the scheduler: a registration, a completed
add_input_packet call, one find_work loop iteration, or an environment
action on the executor keeper slots or address liveness. -/
inductive WMStep : WorkManager → WorkManager → Prop where
  | register (s : WorkManager) (ty : Nat) (e : ExecutorType) (split : Bool)
      (s1 : WorkManager) :
      add_executors s ty e split = .ok s1 → WMStep s s1
  | add (s : WorkManager) (a : ExecutorAddress) (p : Packet) (fuel : Nat)
      (s1 : WorkManager) (evs : List Event) :
      add_input_packet s a p fuel = .ok (some (s1, evs)) → WMStep s s1
  | work (s : WorkManager) (dupFuel : Nat) (last : Option GenericExecutor)
      (o : WorkOutcome) (s1 : WorkManager) (evs : List Event) :
      find_work_iter dupFuel s last = .ok (o, s1, evs) → WMStep s s1
  | keeperSet (s : WorkManager) (ks : List WeakExecutorAddress) :
      WMStep s { s with keeper_bound := ks }
  | liveSet (s : WorkManager) (ls : List WeakExecutorAddress) :
      WMStep s { s with live_addresses := ls }

/-- States reachable from a freshly constructed WorkManager. -/
def WMReachable (capacity : Nat) (s : WorkManager) : Prop :=
  Relation.ReflTransGen WMStep (WorkManager.new capacity) s

/-- The conservation balance of claim C1. -/
def counters_balanced (s : WorkManager) : Prop :=
  s.packets_in = s.packets_out + s.pending_packets_count

/-- Number of occurrences of a weak address in duplicable_executors. -/
def dup_count (s : WorkManager) (w : WeakExecutorAddress) : Nat :=
  s.duplicable_executors.count w

/-- Number of occurrences of an address across all waiting queues. -/
def waitingCount (m : List (Nat × List ExecutorAddress))
    (w : ExecutorAddress) : Nat :=
  (m.map (fun tq => tq.2.count w)).sum

/-- Number of occurrences of an address in the waiting queues of s. -/
def wait_count (s : WorkManager) (w : WeakExecutorAddress) : Nat :=
  waitingCount s.waiting_addresses w

/-- The tracking invariant behind claim C5: every address is tracked at
most once across duplicable_executors and waiting_addresses, and a tracked
address has an input-queue entry. -/
def tracked_once (s : WorkManager) : Prop :=
  ∀ w, dup_count s w + wait_count s w ≤ 1 ∧
    (1 ≤ dup_count s w + wait_count s w →
      (alistLookup s.packets_map w).isSome = true)

/-- One entry popped from the kmers-transform process queue: the sub-bucket
file path (abstract id) and its can_resplit flag. -/
structure ProcessQueueItem where
  path : Nat
  can_resplit : Bool
deriving DecidableEq, Repr

/-- Where process_buffers routes a popped sub-bucket file. -/
inductive Route where
  | processGroup
  | resplit
deriving DecidableEq, Repr

/-- The configuration consulted by process_buffers: the two config
constants and the compile-time resplit feature switch
(kmerge-read-resplit-disable). -/
structure KmersTransformConfig where
  second_buckets_count : Nat
  minimum_resplit_size : Nat
  resplit_disabled : Bool
deriving DecidableEq, Repr

/-- The routing decision of KmersTransform::process_buffers (mod.rs lines
309-342): a file is an outlier when its size strictly exceeds
typical_sub_bucket_size * SECOND_BUCKETS_COUNT; a non-outlier, a
non-resplittable file, a file smaller than MINIMUM_RESPLIT_SIZE, or a
disabled resplit feature all send it to the removing reader and
process_group; otherwise it goes to the reprocess queue. -/
def route_sub_bucket (cfg : KmersTransformConfig)
    (typical_sub_bucket_size file_size : Nat) (split : Bool) : Route :=
  let is_outlier :=
    decide (typical_sub_bucket_size * cfg.second_buckets_count < file_size)
  if !is_outlier || !split || decide (file_size < cfg.minimum_resplit_size)
      || cfg.resplit_disabled
  then .processGroup else .resplit

/-- The process_buffers drain loop: pop every queue item in order, route it,
and collect the paths handed to process_group and the paths pushed onto the
reprocess queue. file_size_of gives the size observed by opening the path. -/
def process_buffers (cfg : KmersTransformConfig) (file_size_of : Nat → Nat)
    (typical_sub_bucket_size : Nat) :
    List ProcessQueueItem → (List Nat × List Nat)
  | [] => ([], [])
  | item :: rest =>
    let r := process_buffers cfg file_size_of typical_sub_bucket_size rest
    match route_sub_bucket cfg typical_sub_bucket_size
        (file_size_of item.path) item.can_resplit with
    | .processGroup => (item.path :: r.1, r.2)
    | .resplit => (r.1, item.path :: r.2)

/-- The resplit routing condition as the claim states it: outlier size,
resplittable, at least the minimum resplit size, resplit feature enabled. -/
def claimed_resplit_condition (cfg : KmersTransformConfig)
    (typical_sub_bucket_size file_size : Nat) (split : Bool) : Bool :=
  decide (typical_sub_bucket_size * cfg.second_buckets_count < file_size)
    && split && decide (cfg.minimum_resplit_size ≤ file_size)
    && !cfg.resplit_disabled

/-- A sample registered scheduler state used by witnesses: one executor
type (id 0) of kind MultipleCommonPacketUnits with splittable instances,
queue capacity 2. -/
def wmMCPU : WorkManager :=
  { WorkManager.new 2 with
    execution_managers_info := [(0, ⟨.MultipleCommonPacketUnits, true⟩)]
    waiting_addresses := [(0, [])] }

/-- The sample address of type 0. -/
def adr0 : ExecutorAddress := ⟨0, 0⟩

/-- The state after feeding packet 5 for adr0 into the sample scheduler. -/
def wmC2after : WorkManager :=
  { execution_managers_info := [(0, ⟨.MultipleCommonPacketUnits, true⟩)]
    packets_map := [(adr0, [(adr0, 5)])]
    duplicable_executors := []
    waiting_addresses := [(0, [adr0])]
    pending_packets_count := 1
    keeper_bound := []
    live_addresses := []
    cap := 2
    packets_in := 1
    packets_out := 0 }

/-- The last-executor instance used by the C4 witness. -/
def ex4 : GenericExecutor := ⟨adr0, true, false⟩

/-- The intermediate state of the C4 witness (queue of adr0 popped). -/
def wmC4s1 : WorkManager := { wmC2after with packets_map := [(adr0, [])] }

/-- The sample state with an instance bound in the keeper of adr0. -/
def wmC3b : WorkManager := { wmC2after with keeper_bound := [adr0] }

/-- A sample state whose only input queue is full (capacity 1). -/
def wmFull : WorkManager := { wmC2after with cap := 1 }

/-- Fields and balance relations shared by all scheduler-internal packet
movements: the waiting queues, keeper slots, liveness, capacity,
registration and packets_out are untouched, packets_in and
pending_packets_count move together, and the set of input-queue keys is
unchanged. -/
def quiet_effect (s s1 : WorkManager) : Prop :=
  s1.waiting_addresses = s.waiting_addresses ∧
  s1.keeper_bound = s.keeper_bound ∧
  s1.live_addresses = s.live_addresses ∧
  s1.cap = s.cap ∧
  s1.execution_managers_info = s.execution_managers_info ∧
  s1.packets_out = s.packets_out ∧
  s1.packets_in + s.pending_packets_count =
    s.packets_in + s1.pending_packets_count ∧
  (∀ w, (alistLookup s1.packets_map w).isSome =
    (alistLookup s.packets_map w).isSome)

/-- The sample state whose only duplicable entry is the worker's own
address. -/
def wmOwn : WorkManager :=
  { wmC2after with
    duplicable_executors := [adr0]
    live_addresses := [adr0] }

/-- C7 counterexample: the claim says reset succeeds regardless of the
queue contents at return time, but returning a non-empty queue makes the
reset assertion fail. -/
theorem claim_C7_cex :
    poolReturnQueue ([] : List (List Packet)) [1] =
      .error Panic.assertEmptyFailed := rfl

/-- C7 amended: reset succeeds exactly when the queue is already empty at
return time, in which case the queue is fresh-empty and the pool return
succeeds; a non-empty queue makes the return panic. -/
theorem claim_C7_amended : ∀ (pool : List (List Packet)) (q : List Packet),
    (arrayQueueReset q = .ok ([] : List Packet) ↔ q = []) ∧
    (q ≠ [] → poolReturnQueue pool q = .error Panic.assertEmptyFailed) ∧
    (q = [] → poolReturnQueue pool q = .ok ([] :: pool)) := by
  intro pool q
  refine ⟨?_, ?_, ?_⟩
  · cases q <;> simp [arrayQueueReset]
  · intro h
    cases q with
    | nil => exact absurd rfl h
    | cons x r => simp [poolReturnQueue, arrayQueueReset]
  · intro h
    subst h
    simp [poolReturnQueue, arrayQueueReset]

/-- C7 witness: the amended claim evaluated at a non-empty and at an empty
queue. -/
theorem claim_C7_amended_witness :
    poolReturnQueue ([] : List (List Packet)) [1] =
        .error Panic.assertEmptyFailed ∧
    poolReturnQueue ([] : List (List Packet)) [] = .ok [[]] :=
  ⟨(claim_C7_amended [] [1]).2.1 (by decide),
   (claim_C7_amended [] []).2.2 rfl⟩

/-- C8: registering an executor type whose type id is already present
aborts with the uniqueness assertion, whatever the other arguments are. -/
theorem claim_C8 : ∀ (s : WorkManager) (ty : Nat) (info : ManagerInfo)
    (e : ExecutorType) (split : Bool),
    alistLookup s.execution_managers_info ty = some info →
    add_executors s ty e split = .error Panic.doubleRegistration := by
  intro s ty info e split h
  simp [add_executors, h]

/-- C8 witness: re-registering type 0 of the sample state aborts. -/
theorem claim_C8_witness :
    add_executors wmMCPU 0 ExecutorType.MultipleUnits false =
      .error Panic.doubleRegistration :=
  claim_C8 wmMCPU 0 ⟨.MultipleCommonPacketUnits, true⟩
    ExecutorType.MultipleUnits false (by decide)

/-- C10: a popped sub-bucket file goes to the reprocess queue exactly when
it is an outlier (size strictly above typical_sub_bucket_size times
SECOND_BUCKETS_COUNT), resplittable, at least MINIMUM_RESPLIT_SIZE large
and the resplit feature is enabled; process_buffers partitions the queue
accordingly, handing everything else to process_group. -/
theorem claim_C10 : ∀ (cfg : KmersTransformConfig) (fsz : Nat → Nat)
    (typical : Nat) (items : List ProcessQueueItem),
    (∀ sz split, route_sub_bucket cfg typical sz split = Route.resplit ↔
      claimed_resplit_condition cfg typical sz split = true) ∧
    process_buffers cfg fsz typical items =
      ((items.filter (fun it =>
          !claimed_resplit_condition cfg typical (fsz it.path)
            it.can_resplit)).map ProcessQueueItem.path,
       (items.filter (fun it =>
          claimed_resplit_condition cfg typical (fsz it.path)
            it.can_resplit)).map ProcessQueueItem.path) := by
  intro cfg fsz typical items
  have hroute : ∀ sz split,
      route_sub_bucket cfg typical sz split = Route.resplit ↔
        claimed_resplit_condition cfg typical sz split = true := by
    intro sz split
    simp only [route_sub_bucket, claimed_resplit_condition]
    by_cases h1 : typical * cfg.second_buckets_count < sz <;>
      by_cases h2 : split = true <;>
        by_cases h3 : sz < cfg.minimum_resplit_size <;>
          by_cases h4 : cfg.resplit_disabled = true <;>
            simp_all
  refine ⟨hroute, ?_⟩
  induction items with
  | nil => simp [process_buffers]
  | cons it rest ih =>
    by_cases hc : claimed_resplit_condition cfg typical (fsz it.path)
        it.can_resplit = true
    · have : route_sub_bucket cfg typical (fsz it.path) it.can_resplit =
          Route.resplit := (hroute _ _).mpr hc
      simp [process_buffers, this, ih, hc]
    · have : route_sub_bucket cfg typical (fsz it.path) it.can_resplit ≠
          Route.resplit := by
        intro hr
        exact hc ((hroute _ _).mp hr)
      have hpg : route_sub_bucket cfg typical (fsz it.path) it.can_resplit =
          Route.processGroup := by
        cases hr : route_sub_bucket cfg typical (fsz it.path) it.can_resplit
        · rfl
        · exact absurd hr this
      simp [process_buffers, hpg, ih, hc]

theorem alistLookup_update_self [DecidableEq κ] {m : List (κ × α)} {k : κ}
    {q : α} (v : α) (h : alistLookup m k = some q) :
    alistLookup (alistUpdate m k v) k = some v := by
  induction m with
  | nil => simp [alistLookup] at h
  | cons kv rest ih =>
    obtain ⟨k1, v1⟩ := kv
    by_cases hk : k1 = k
    · subst hk
      simp [alistLookup, alistUpdate]
    · simp [alistLookup, alistUpdate, hk] at h ⊢
      exact ih h

theorem alistLookup_update_ne [DecidableEq κ] (m : List (κ × α)) {k k0 : κ}
    (v : α) (h : k ≠ k0) :
    alistLookup (alistUpdate m k0 v) k = alistLookup m k := by
  induction m with
  | nil => simp [alistUpdate]
  | cons kv rest ih =>
    obtain ⟨k1, v1⟩ := kv
    by_cases hk : k1 = k0
    · subst hk
      simp [alistLookup, alistUpdate, Ne.symm h]
    · simp [alistLookup, alistUpdate, hk]
      by_cases hk1 : k1 = k
      · simp [hk1]
      · simp [hk1, ih]

theorem alistUpdate_of_none [DecidableEq κ] {m : List (κ × α)} {k0 : κ}
    (v : α) (h : alistLookup m k0 = none) : alistUpdate m k0 v = m := by
  induction m with
  | nil => simp [alistUpdate]
  | cons kv rest ih =>
    obtain ⟨k1, v1⟩ := kv
    by_cases hk : k1 = k0 <;> simp [alistLookup, hk] at h ⊢ <;>
      simp [alistUpdate, hk, ih h]

theorem alistLookup_update_isSome [DecidableEq κ] (m : List (κ × α))
    (k0 : κ) (v : α) (k : κ) :
    (alistLookup (alistUpdate m k0 v) k).isSome =
      (alistLookup m k).isSome := by
  by_cases hk : k = k0
  · subst hk
    cases h : alistLookup m k with
    | none => rw [alistUpdate_of_none v h, h]
    | some q => simp [alistLookup_update_self v h, h]
  · rw [alistLookup_update_ne m v hk]

theorem alistLookup_append_of_some [DecidableEq κ] {m : List (κ × α)}
    {k : κ} {q : α} (l : List (κ × α)) (h : alistLookup m k = some q) :
    alistLookup (m ++ l) k = some q := by
  induction m with
  | nil => simp [alistLookup] at h
  | cons kv rest ih =>
    obtain ⟨k1, v1⟩ := kv
    by_cases hk : k1 = k <;> simp [alistLookup, hk] at h ⊢
    · exact h
    · exact ih h

theorem alistLookup_append_of_none [DecidableEq κ] {m : List (κ × α)}
    {k : κ} (l : List (κ × α)) (h : alistLookup m k = none) :
    alistLookup (m ++ l) k = alistLookup l k := by
  induction m with
  | nil => simp
  | cons kv rest ih =>
    obtain ⟨k1, v1⟩ := kv
    by_cases hk : k1 = k <;> simp [alistLookup, hk] at h ⊢
    exact ih h

theorem alistUpdate_map_fst [DecidableEq κ] (m : List (κ × α)) (k0 : κ)
    (v : α) : (alistUpdate m k0 v).map Prod.fst = m.map Prod.fst := by
  induction m with
  | nil => simp [alistUpdate]
  | cons kv rest ih =>
    obtain ⟨k1, v1⟩ := kv
    by_cases hk : k1 = k0 <;> simp [alistUpdate, hk, ih]

theorem ensure_entry_lookup {s : WorkManager} {a : ExecutorAddress}
    {s1 : WorkManager} {q : List (ExecutorAddress × Packet)}
    (h : ensure_entry s a = .ok (s1, q)) :
    alistLookup s1.packets_map a.to_weak = some q := by
  unfold ensure_entry at h
  cases hl : alistLookup s.packets_map a.to_weak with
  | some q0 =>
    rw [hl] at h
    simp at h
    obtain ⟨h1, h2⟩ := h
    subst h1
    subst h2
    exact hl
  | none =>
    rw [hl] at h
    cases hw : alistLookup s.waiting_addresses a.executor_type_id with
    | none => rw [hw] at h; simp at h
    | some wq =>
      rw [hw] at h
      simp at h
      obtain ⟨h1, h2⟩ := h
      subst h1
      subst h2
      simp [alistLookup_append_of_none _ hl, alistLookup]

theorem ensure_entry_of_present {s : WorkManager} {a : ExecutorAddress}
    {q : List (ExecutorAddress × Packet)}
    (h : alistLookup s.packets_map a.to_weak = some q) :
    ensure_entry s a = .ok (s, q) := by
  simp [ensure_entry, h]

theorem add_loop_ok_some {a : ExecutorAddress} {p : Packet} :
    ∀ (fl : Nat) (s0 s1 : WorkManager) (evs : List Event),
      add_loop a p fl s0 = .ok (some (s1, evs)) →
      ∃ st q, ensure_entry s0 a = .ok (st, q) ∧ q.length < st.cap ∧
        s1 = set_queue st a.to_weak (q ++ [(a, p)]) ∧
        evs = [Event.notifyAll] := by
  intro fl
  induction fl with
  | zero => intro s0 s1 evs h; simp [add_loop] at h
  | succ n ih =>
    intro s0 s1 evs h
    rw [add_loop] at h
    cases he : ensure_entry s0 a with
    | error e => rw [he] at h; simp at h
    | ok r =>
      obtain ⟨st, q⟩ := r
      rw [he] at h
      simp only at h
      by_cases hroom : q.length < st.cap
      · rw [show arrayQueuePush st.cap q (a, p) = .ok (q ++ [(a, p)]) from
          by simp [arrayQueuePush, hroom]] at h
        simp at h
        exact ⟨st, q, rfl, hroom, h.1.symm, h.2.symm⟩
      · rw [show arrayQueuePush st.cap q (a, p) = .error (a, p) from
          by simp [arrayQueuePush, hroom]] at h
        simp only at h
        obtain ⟨st2, q2, he2, hroom2, hs, hevs⟩ := ih st s1 evs h
        rw [ensure_entry_of_present (ensure_entry_lookup he)] at he2
        simp at he2
        obtain ⟨hst2, hq2⟩ := he2
        subst hst2
        subst hq2
        exact absurd hroom2 hroom

theorem add_loop_full {a : ExecutorAddress} {p : Packet} {s : WorkManager}
    {q : List (ExecutorAddress × Packet)}
    (h1 : alistLookup s.packets_map a.to_weak = some q)
    (h2 : ¬ q.length < s.cap) :
    ∀ fl, add_loop a p fl s = .ok none := by
  intro fl
  induction fl with
  | zero => rfl
  | succ n ih =>
    rw [add_loop, ensure_entry_of_present h1]
    simp only
    rw [show arrayQueuePush s.cap q (a, p) = .error (a, p) from
      by simp [arrayQueuePush, h2]]
    exact ih

/-- C2 counterexample: a successful add_input_packet call notifies all
waiters (the source calls notify_all), not one waiter; no notify-one
effect is produced. -/
theorem claim_C2_cex :
    add_input_packet wmMCPU adr0 5 1 =
      .ok (some (wmC2after, [Event.notifyAll])) ∧
    Event.notifyOne ∉ ([Event.notifyAll] : List Event) := by
  constructor
  · rfl
  · decide

/-- C2 amended: add_input_packet increments pending_packets_count by one,
lazily creates the input queue for the weak address, pushing the address
onto the waiting queue of its type only on creation, appends the pair to
the queue, spin-retries forever on a full queue without dropping the
packet, and after a successful push notifies ALL waiters. -/
theorem claim_C2_amended : ∀ (s : WorkManager) (a : ExecutorAddress)
    (p : Packet),
    (∀ wq fl, alistLookup s.packets_map a.to_weak = none →
      alistLookup s.waiting_addresses a.executor_type_id = some wq →
      0 < s.cap →
      add_input_packet s a p (fl + 1) = .ok (some
        ({ s with
            pending_packets_count := s.pending_packets_count + 1
            packets_in := s.packets_in + 1
            waiting_addresses :=
              alistUpdate s.waiting_addresses a.executor_type_id (wq ++ [a])
            packets_map :=
              alistUpdate (s.packets_map ++ [(a.to_weak, [])]) a.to_weak
                [(a, p)] },
         [Event.notifyAll]))) ∧
    (∀ q fl, alistLookup s.packets_map a.to_weak = some q →
      q.length < s.cap →
      add_input_packet s a p (fl + 1) = .ok (some
        ({ s with
            pending_packets_count := s.pending_packets_count + 1
            packets_in := s.packets_in + 1
            packets_map := alistUpdate s.packets_map a.to_weak
              (q ++ [(a, p)]) },
         [Event.notifyAll]))) ∧
    (∀ q fl, alistLookup s.packets_map a.to_weak = some q →
      ¬ q.length < s.cap →
      add_input_packet s a p fl = .ok none) ∧
    (∀ fl s1 evs, add_input_packet s a p fl = .ok (some (s1, evs)) →
      (a, p) ∈ (alistLookup s1.packets_map a.to_weak).getD []) := by
  intro s a p
  refine ⟨?_, ?_, ?_, ?_⟩
  · intro wq fl h1 h2 h3
    rw [add_input_packet, add_loop]
    rw [show ensure_entry { s with
        pending_packets_count := s.pending_packets_count + 1
        packets_in := s.packets_in + 1 } a = .ok ({ s with
          pending_packets_count := s.pending_packets_count + 1
          packets_in := s.packets_in + 1
          waiting_addresses :=
            alistUpdate s.waiting_addresses a.executor_type_id (wq ++ [a])
          packets_map := s.packets_map ++ [(a.to_weak, [])] }, []) from
      by simp [ensure_entry, h1, h2]]
    simp [arrayQueuePush, h3, set_queue]
  · intro q fl h1 h2
    rw [add_input_packet, add_loop]
    rw [show ensure_entry { s with
        pending_packets_count := s.pending_packets_count + 1
        packets_in := s.packets_in + 1 } a = .ok ({ s with
          pending_packets_count := s.pending_packets_count + 1
          packets_in := s.packets_in + 1 }, q) from
      by simp [ensure_entry, h1]]
    simp [arrayQueuePush, h2, set_queue]
  · intro q fl h1 h2
    rw [add_input_packet]
    exact add_loop_full (s := { s with
      pending_packets_count := s.pending_packets_count + 1
      packets_in := s.packets_in + 1 }) h1 h2 fl
  · intro fl s1 evs h
    rw [add_input_packet] at h
    obtain ⟨st, q, he, hroom, hs, hevs⟩ := add_loop_ok_some fl _ s1 evs h
    subst hs
    rw [set_queue]
    simp only
    rw [alistLookup_update_self _ (ensure_entry_lookup he)]
    simp

theorem get_packet_some {s : WorkManager} {addr : ExecutorAddress}
    {p : Packet} {s1 : WorkManager}
    (h : get_packet_from_addr s addr = some (p, s1)) :
    ∃ a0 rest, alistLookup s.packets_map addr.to_weak =
        some ((a0, p) :: rest) ∧ s1 = set_queue s addr.to_weak rest := by
  unfold get_packet_from_addr at h
  cases hl : alistLookup s.packets_map addr.to_weak with
  | none => rw [hl] at h; simp at h
  | some q =>
    rw [hl] at h
    cases q with
    | nil => simp at h
    | cons hd rest =>
      obtain ⟨a0, p0⟩ := hd
      simp at h
      exact ⟨a0, rest, by rw [h.1], h.2.symm⟩

theorem add_input_packet_present_ok {s : WorkManager} {a : ExecutorAddress}
    {p : Packet} {q : List (ExecutorAddress × Packet)}
    (h1 : alistLookup s.packets_map a.to_weak = some q)
    (h2 : q.length < s.cap) (fl : Nat) :
    add_input_packet s a p (fl + 1) = .ok (some
      ({ s with
          pending_packets_count := s.pending_packets_count + 1
          packets_in := s.packets_in + 1
          packets_map := alistUpdate s.packets_map a.to_weak
            (q ++ [(a, p)]) },
       [Event.notifyAll])) := by
  rw [add_input_packet, add_loop]
  rw [show ensure_entry { s with
      pending_packets_count := s.pending_packets_count + 1
      packets_in := s.packets_in + 1 } a = .ok ({ s with
        pending_packets_count := s.pending_packets_count + 1
        packets_in := s.packets_in + 1 }, q) from
    by simp [ensure_entry, h1]]
  simp [arrayQueuePush, h2, set_queue]

/-- C4: inside the scheduling loop (which runs only while
pending_packets_count is positive), a set last_executor is served first:
one packet is popped from its address input queue, pending_packets_count
drops by exactly one, all waiters are notified and the packet is
returned. -/
theorem claim_C4 : ∀ (dupFuel : Nat) (s : WorkManager)
    (e : GenericExecutor) (p : Packet) (s1 : WorkManager),
    0 < s.pending_packets_count →
    get_packet_from_addr s e.address = some (p, s1) →
    find_work_iter dupFuel s (some e) = .ok (.packet p,
      { s1 with
        pending_packets_count := s1.pending_packets_count - 1
        packets_out := s1.packets_out + 1 }, [Event.notifyAll]) ∧
    s1.pending_packets_count = s.pending_packets_count ∧
    ({ s1 with
        pending_packets_count := s1.pending_packets_count - 1
        packets_out := s1.packets_out + 1 }).pending_packets_count + 1 =
      s.pending_packets_count := by
  intro dupFuel s e p s1 h0 h1
  have hne : ¬ s.pending_packets_count = 0 := Nat.pos_iff_ne_zero.mp h0
  have hpend : s1.pending_packets_count = s.pending_packets_count := by
    obtain ⟨a0, rest, hl, hs⟩ := get_packet_some h1
    subst hs
    rfl
  refine ⟨?_, hpend, ?_⟩
  · rw [find_work_iter]
    simp [hne, h1]
  · simp only
    omega

/-- C4 witness: the locality hit evaluated on the sample state holding one
pending packet for adr0. -/
theorem claim_C4_witness :
    find_work_iter 0 wmC2after (some ex4) = .ok (.packet 5,
      { wmC4s1 with
        pending_packets_count := wmC4s1.pending_packets_count - 1
        packets_out := wmC4s1.packets_out + 1 }, [Event.notifyAll]) :=
  (claim_C4 0 wmC2after ex4 5 wmC4s1 (by decide) (by decide)).1

/-- C9: the fairness step unwraps the alloc_executor result; for a popped
waiting address of a MultipleCommonPacketUnits type whose input queue is
empty at that moment, alloc_executor returns none and the unwrap panics,
so the panic branch is unreachable only when every popped address still
holds at least one queued packet. -/
theorem claim_C9 : ∀ (s : WorkManager) (a : ExecutorAddress)
    (wl : List (Nat × List ExecutorAddress)) (info : ManagerInfo),
    popFirstWaiting s.waiting_addresses = some (a, wl) →
    alistLookup s.execution_managers_info a.executor_type_id = some info →
    info.executor_type = .MultipleCommonPacketUnits →
    (alistLookup s.packets_map a.to_weak = none ∨
      alistLookup s.packets_map a.to_weak = some []) →
    alloc_executor { s with waiting_addresses := wl } a =
      .ok (none, { s with waiting_addresses := wl }, []) ∧
    fairness_step s = .error Panic.unwrapNone := by
  intro s a wl info h1 h2 h3 h4
  have halloc : alloc_executor { s with waiting_addresses := wl } a =
      .ok (none, { s with waiting_addresses := wl }, []) := by
    have hget : get_packet_from_addr { s with waiting_addresses := wl } a =
        none := by
      rcases h4 with h4 | h4 <;> simp [get_packet_from_addr, h4]
    simp [alloc_executor, h2, h3, hget]
  refine ⟨halloc, ?_⟩
  rw [fairness_step, h1]
  simp [halloc]

/-- C9 witness: popping adr0 from the waiting queue while its input queue
is empty panics in the fairness step. -/
theorem claim_C9_witness :
    alloc_executor { wmC4s1 with waiting_addresses := [(0, [])] } adr0 =
      .ok (none, { wmC4s1 with waiting_addresses := [(0, [])] }, []) ∧
    fairness_step wmC4s1 = .error Panic.unwrapNone :=
  claim_C9 wmC4s1 adr0 [(0, [])] ⟨.MultipleCommonPacketUnits, true⟩
    (by decide) (by decide) rfl (Or.inr (by decide))

/-- C3: for a MultipleCommonPacketUnits type, the first allocation for an
address with no bound instance consumes exactly one queued packet, handing
it to allocate_new_group as the opener and leaving the rest of the queue
untouched; while an instance is bound in the executor_keeper, a further
allocation takes the clone_executor path, never calls allocate_new_group,
and the popped packet is re-enqueued, so no further opener is consumed. -/
theorem claim_C3 : ∀ (s : WorkManager) (a a0 : ExecutorAddress)
    (p : Packet) (rest : List (ExecutorAddress × Packet))
    (info : ManagerInfo),
    alistLookup s.execution_managers_info a.executor_type_id = some info →
    info.executor_type = .MultipleCommonPacketUnits →
    alistLookup s.packets_map a.to_weak = some ((a0, p) :: rest) →
    (a.to_weak ∉ s.keeper_bound →
      alloc_executor s a = .ok (some ⟨a, info.can_split, false⟩,
        set_queue s a.to_weak rest, [Event.allocNewGroup a (some p)])) ∧
    (a.to_weak ∈ s.keeper_bound → rest.length < s.cap →
      ∃ s2, alloc_executor s a = .ok (some ⟨a, info.can_split, true⟩, s2,
          [Event.cloneExecutor a, Event.notifyAll]) ∧
        alistLookup s2.packets_map a.to_weak = some (rest ++ [(a, p)]) ∧
        s2.pending_packets_count = s.pending_packets_count + 1 ∧
        s2.packets_in = s.packets_in + 1 ∧
        (∀ b op, Event.allocNewGroup b op ∉
          ([Event.cloneExecutor a, Event.notifyAll] : List Event))) := by
  intro s a a0 p rest info h1 h2 h3
  have hget : get_packet_from_addr s a =
      some (p, set_queue s a.to_weak rest) := by
    simp [get_packet_from_addr, h3]
  constructor
  · intro hk
    simp [alloc_executor, h1, h2, hget, allocate_execution_unit, set_queue,
      hk, alloc_finish]
  · intro hk hroom
    have hlook : alistLookup (set_queue s a.to_weak rest).packets_map
        a.to_weak = some rest := alistLookup_update_self _ h3
    have hadd := add_input_packet_present_ok
      (s := set_queue s a.to_weak rest) (a := a) (p := p) hlook hroom 0
    simp only [set_queue] at hadd
    refine ⟨{ s with
      pending_packets_count := s.pending_packets_count + 1
      packets_in := s.packets_in + 1
      packets_map := alistUpdate (alistUpdate s.packets_map a.to_weak rest)
        a.to_weak (rest ++ [(a, p)]) }, ?_, ?_, rfl, rfl, ?_⟩
    · simp [alloc_executor, h1, h2, hget, allocate_execution_unit, hk,
        alloc_finish, set_queue, hadd]
    · exact alistLookup_update_self _ hlook
    · intro b op
      simp

/-- C3 witness: the opener-consuming first allocation and the clone path
evaluated on the sample states. -/
theorem claim_C3_witness :
    (alloc_executor wmC2after adr0 = .ok (some ⟨adr0, true, false⟩,
      set_queue wmC2after adr0.to_weak [],
      [Event.allocNewGroup adr0 (some 5)])) ∧
    (∃ s2, alloc_executor wmC3b adr0 = .ok (some ⟨adr0, true, true⟩, s2,
        [Event.cloneExecutor adr0, Event.notifyAll]) ∧
      alistLookup s2.packets_map adr0.to_weak = some [(adr0, 5)] ∧
      s2.pending_packets_count = wmC3b.pending_packets_count + 1 ∧
      s2.packets_in = wmC3b.packets_in + 1 ∧
      (∀ b op, Event.allocNewGroup b op ∉
        ([Event.cloneExecutor adr0, Event.notifyAll] : List Event))) :=
  ⟨(claim_C3 wmC2after adr0 adr0 5 [] ⟨.MultipleCommonPacketUnits, true⟩
      (by decide) rfl (by decide)).1 (by decide),
   (claim_C3 wmC3b adr0 adr0 5 [] ⟨.MultipleCommonPacketUnits, true⟩
      (by decide) rfl (by decide)).2 (by decide) (by decide)⟩

/-- C2 amended witness: creation case, full-queue spinning case and the
no-drop property evaluated on the sample states. -/
theorem claim_C2_amended_witness :
    add_input_packet wmMCPU adr0 5 (0 + 1) = .ok (some
      ({ wmMCPU with
          pending_packets_count := wmMCPU.pending_packets_count + 1
          packets_in := wmMCPU.packets_in + 1
          waiting_addresses := alistUpdate wmMCPU.waiting_addresses
            adr0.executor_type_id ([] ++ [adr0])
          packets_map := alistUpdate
            (wmMCPU.packets_map ++ [(adr0.to_weak, [])]) adr0.to_weak
            [(adr0, 5)] },
       [Event.notifyAll])) ∧
    add_input_packet wmFull adr0 7 3 = .ok none ∧
    (adr0, 5) ∈ (alistLookup wmC2after.packets_map adr0.to_weak).getD [] :=
  ⟨(claim_C2_amended wmMCPU adr0 5).1 [] 0 (by decide) (by decide)
      (by decide),
   (claim_C2_amended wmFull adr0 7).2.2.1 [(adr0, 5)] 3 (by decide)
      (by decide),
   (claim_C2_amended wmMCPU adr0 5).2.2.2 1 wmC2after [Event.notifyAll]
      rfl⟩

theorem alistLookup_append_single_isSome [DecidableEq κ]
    (m : List (κ × α)) (k : κ) (v : α) (w : κ) :
    (alistLookup (m ++ [(k, v)]) w).isSome =
      ((alistLookup m w).isSome || decide (w = k)) := by
  cases h : alistLookup m w with
  | some q => simp [alistLookup_append_of_some _ h]
  | none =>
    rw [alistLookup_append_of_none _ h]
    by_cases hk : k = w
    · subst hk
      simp [alistLookup]
    · have hwk : ¬ w = k := fun hh => hk hh.symm
      simp [alistLookup, hk, hwk]

theorem waitingCount_update_push {m : List (Nat × List ExecutorAddress)}
    {ty : Nat} {wq : List ExecutorAddress} (x w : ExecutorAddress)
    (h : alistLookup m ty = some wq) :
    waitingCount (alistUpdate m ty (wq ++ [x])) w =
      waitingCount m w + (if x = w then 1 else 0) := by
  induction m with
  | nil => simp [alistLookup] at h
  | cons kv rest ih =>
    obtain ⟨ty1, q1⟩ := kv
    by_cases hk : ty1 = ty
    · subst hk
      simp [alistLookup] at h
      subst h
      simp [alistUpdate, waitingCount, List.count_append, List.count_cons]
      by_cases hx : x = w <;> simp [hx] <;> omega
    · simp [alistLookup, hk] at h
      simp [alistUpdate, hk, waitingCount] at ih ⊢
      rw [ih h]
      omega

theorem waitingCount_append_empty (m : List (Nat × List ExecutorAddress))
    (ty : Nat) (w : ExecutorAddress) :
    waitingCount (m ++ [(ty, [])]) w = waitingCount m w := by
  simp [waitingCount]

theorem waitingCount_pop {m wl : List (Nat × List ExecutorAddress)}
    {x : ExecutorAddress} (w : ExecutorAddress)
    (h : popFirstWaiting m = some (x, wl)) :
    waitingCount m w = waitingCount wl w + (if x = w then 1 else 0) := by
  induction m generalizing wl with
  | nil => simp [popFirstWaiting] at h
  | cons kv rest ih =>
    obtain ⟨ty, q⟩ := kv
    cases q with
    | nil =>
      rw [popFirstWaiting] at h
      cases hr : popFirstWaiting rest with
      | none => rw [hr] at h; simp at h
      | some r =>
        obtain ⟨a1, rest1⟩ := r
        rw [hr] at h
        simp at h
        obtain ⟨hx, hwl⟩ := h
        subst hx
        subst hwl
        simp [waitingCount] at ih ⊢
        rw [ih hr]
    | cons a1 q1 =>
      rw [popFirstWaiting] at h
      simp at h
      obtain ⟨hx, hwl⟩ := h
      subst hx
      subst hwl
      simp [waitingCount, List.count_cons]
      by_cases hax : a1 = w <;> simp [hax] <;> omega

theorem ensure_entry_cases {s : WorkManager} {a : ExecutorAddress}
    {st : WorkManager} {q : List (ExecutorAddress × Packet)}
    (h : ensure_entry s a = .ok (st, q)) :
    (alistLookup s.packets_map a.to_weak = some q ∧ st = s) ∨
    (alistLookup s.packets_map a.to_weak = none ∧ q = [] ∧
      ∃ wq, alistLookup s.waiting_addresses a.executor_type_id = some wq ∧
        st = { s with
          waiting_addresses := alistUpdate s.waiting_addresses
            a.executor_type_id (wq ++ [a])
          packets_map := s.packets_map ++ [(a.to_weak, [])] }) := by
  unfold ensure_entry at h
  cases hl : alistLookup s.packets_map a.to_weak with
  | some q0 =>
    rw [hl] at h
    simp at h
    exact Or.inl ⟨by rw [h.2], h.1.symm⟩
  | none =>
    rw [hl] at h
    cases hw : alistLookup s.waiting_addresses a.executor_type_id with
    | none => rw [hw] at h; simp at h
    | some wq =>
      rw [hw] at h
      simp at h
      exact Or.inr ⟨rfl, h.2, wq, rfl, h.1.symm⟩

theorem add_ok_cases {s : WorkManager} {a : ExecutorAddress} {p : Packet}
    {fuel : Nat} {s1 : WorkManager} {evs : List Event}
    (h : add_input_packet s a p fuel = .ok (some (s1, evs))) :
    evs = [Event.notifyAll] ∧
    ∃ st q, ensure_entry { s with
        pending_packets_count := s.pending_packets_count + 1
        packets_in := s.packets_in + 1 } a = .ok (st, q) ∧
      q.length < st.cap ∧ s1 = set_queue st a.to_weak (q ++ [(a, p)]) := by
  rw [add_input_packet] at h
  obtain ⟨st, q, he, hroom, hs, hevs⟩ := add_loop_ok_some fuel _ s1 evs h
  exact ⟨hevs, st, q, he, hroom, hs⟩

theorem add_ok_fields {s : WorkManager} {a : ExecutorAddress} {p : Packet}
    {fuel : Nat} {s1 : WorkManager} {evs : List Event}
    (h : add_input_packet s a p fuel = .ok (some (s1, evs))) :
    s1.pending_packets_count = s.pending_packets_count + 1 ∧
    s1.packets_in = s.packets_in + 1 ∧
    s1.packets_out = s.packets_out ∧
    s1.cap = s.cap ∧
    s1.duplicable_executors = s.duplicable_executors ∧
    s1.keeper_bound = s.keeper_bound ∧
    s1.live_addresses = s.live_addresses ∧
    s1.execution_managers_info = s.execution_managers_info := by
  obtain ⟨-, st, q, he, -, hs⟩ := add_ok_cases h
  rcases ensure_entry_cases he with ⟨-, hst⟩ | ⟨-, -, wq, -, hst⟩ <;>
    subst hst <;> subst hs <;>
      exact ⟨rfl, rfl, rfl, rfl, rfl, rfl, rfl, rfl⟩

theorem add_ok_waiting_present {s : WorkManager} {a : ExecutorAddress}
    {p : Packet} {fuel : Nat} {s1 : WorkManager} {evs : List Event}
    {q0 : List (ExecutorAddress × Packet)}
    (h : add_input_packet s a p fuel = .ok (some (s1, evs)))
    (hp : alistLookup s.packets_map a.to_weak = some q0) :
    s1.waiting_addresses = s.waiting_addresses ∧
    (∀ w, (alistLookup s1.packets_map w).isSome =
      (alistLookup s.packets_map w).isSome) := by
  obtain ⟨-, st, q, he, -, hs⟩ := add_ok_cases h
  rcases ensure_entry_cases he with ⟨hl, hst⟩ | ⟨hl, -, wq, -, hst⟩
  · subst hst
    subst hs
    exact ⟨rfl, fun w => alistLookup_update_isSome _ _ _ w⟩
  · rw [show ({ s with
      pending_packets_count := s.pending_packets_count + 1
      packets_in := s.packets_in + 1 } :
        WorkManager).packets_map = s.packets_map from rfl] at hl
    rw [hp] at hl
    exact absurd hl (by simp)

theorem add_ok_create {s : WorkManager} {a : ExecutorAddress} {p : Packet}
    {fuel : Nat} {s1 : WorkManager} {evs : List Event}
    (h : add_input_packet s a p fuel = .ok (some (s1, evs)))
    (hnone : alistLookup s.packets_map a.to_weak = none) :
    ∃ wq, alistLookup s.waiting_addresses a.executor_type_id = some wq ∧
      s1.waiting_addresses = alistUpdate s.waiting_addresses
        a.executor_type_id (wq ++ [a]) := by
  obtain ⟨-, st, q, he, -, hs⟩ := add_ok_cases h
  rcases ensure_entry_cases he with ⟨hl, hst⟩ | ⟨-, -, wq, hw, hst⟩
  · rw [show ({ s with
      pending_packets_count := s.pending_packets_count + 1
      packets_in := s.packets_in + 1 } :
        WorkManager).packets_map = s.packets_map from rfl] at hl
    rw [hnone] at hl
    exact absurd hl (by simp)
  · subst hst
    subst hs
    exact ⟨wq, hw, rfl⟩

theorem add_ok_keys {s : WorkManager} {a : ExecutorAddress} {p : Packet}
    {fuel : Nat} {s1 : WorkManager} {evs : List Event}
    (h : add_input_packet s a p fuel = .ok (some (s1, evs))) :
    ∀ w, (alistLookup s1.packets_map w).isSome = true ↔
      ((alistLookup s.packets_map w).isSome = true ∨ w = a.to_weak) := by
  intro w
  obtain ⟨-, st, q, he, -, hs⟩ := add_ok_cases h
  rcases ensure_entry_cases he with ⟨hl, hst⟩ | ⟨hl, -, wq, -, hst⟩ <;>
    subst hst <;> subst hs <;>
      simp only [set_queue, alistLookup_update_isSome,
        alistLookup_append_single_isSome]
  · constructor
    · exact Or.inl
    · rintro (hw | hw)
      · exact hw
      · rw [hw]
        have : alistLookup s.packets_map a.to_weak = some q := by
          simpa using hl
        simp [this]
  · constructor
    · intro hw
      rcases Bool.or_eq_true_iff.mp hw with hw | hw
      · exact Or.inl hw
      · exact Or.inr (of_decide_eq_true hw)
    · rintro (hw | hw)
      · simp [hw]
      · simp [hw]

theorem quiet_refl (s : WorkManager) : quiet_effect s s :=
  ⟨rfl, rfl, rfl, rfl, rfl, rfl, rfl, fun _ => rfl⟩

theorem quiet_trans {s s1 s2 : WorkManager} (h1 : quiet_effect s s1)
    (h2 : quiet_effect s1 s2) : quiet_effect s s2 := by
  obtain ⟨a1, b1, c1, d1, e1, f1, g1, k1⟩ := h1
  obtain ⟨a2, b2, c2, d2, e2, f2, g2, k2⟩ := h2
  refine ⟨a2.trans a1, b2.trans b1, c2.trans c1, d2.trans d1, e2.trans e1,
    f2.trans f1, by omega, fun w => (k2 w).trans (k1 w)⟩

theorem get_packet_fields {s : WorkManager} {addr : ExecutorAddress}
    {p : Packet} {s1 : WorkManager}
    (h : get_packet_from_addr s addr = some (p, s1)) :
    s1.pending_packets_count = s.pending_packets_count ∧
    s1.packets_in = s.packets_in ∧
    s1.packets_out = s.packets_out ∧
    s1.cap = s.cap ∧
    s1.duplicable_executors = s.duplicable_executors ∧
    s1.waiting_addresses = s.waiting_addresses ∧
    s1.keeper_bound = s.keeper_bound ∧
    s1.live_addresses = s.live_addresses ∧
    s1.execution_managers_info = s.execution_managers_info ∧
    (∀ w, (alistLookup s1.packets_map w).isSome =
      (alistLookup s.packets_map w).isSome) := by
  obtain ⟨a0, rest, hl, hs⟩ := get_packet_some h
  subst hs
  exact ⟨rfl, rfl, rfl, rfl, rfl, rfl, rfl, rfl, rfl,
    fun w => alistLookup_update_isSome _ _ _ w⟩

theorem alloc_effect {s : WorkManager} {addr : ExecutorAddress}
    {r : Option GenericExecutor} {s1 : WorkManager} {evs : List Event}
    (h : alloc_executor s addr = .ok (r, s1, evs)) :
    s1.duplicable_executors = s.duplicable_executors ∧
    quiet_effect s s1 := by
  unfold alloc_executor at h
  cases hinfo : alistLookup s.execution_managers_info
      addr.executor_type_id with
  | none => rw [hinfo] at h; simp at h
  | some info =>
    rw [hinfo] at h
    have hsimple : ∀ hx : alloc_finish s addr
        (allocate_execution_unit s addr none info.can_split) =
          .ok (r, s1, evs), s1.duplicable_executors =
            s.duplicable_executors ∧ quiet_effect s s1 := by
      intro hx
      by_cases hk : addr.to_weak ∈ s.keeper_bound <;>
        simp [allocate_execution_unit, hk, alloc_finish] at hx <;>
          obtain ⟨-, h2, -⟩ := hx <;> cases h2 <;>
            exact ⟨rfl, quiet_refl _⟩
    cases hty : info.executor_type with
    | SingleUnit => simp only [hty] at h; exact hsimple h
    | MultipleUnits => simp only [hty] at h; exact hsimple h
    | MultipleCommonPacketUnits =>
      simp only [hty] at h
      cases hget : get_packet_from_addr s addr with
      | none =>
        rw [hget] at h
        simp at h
        obtain ⟨-, h2, -⟩ := h
        cases h2
        exact ⟨rfl, quiet_refl _⟩
      | some pr =>
        obtain ⟨p, sq⟩ := pr
        rw [hget] at h
        simp only at h
        obtain ⟨hpend, hin, hout, hcap, hdup, hwait, hkeep, hlive, hmgr,
          hkeys⟩ := get_packet_fields hget
        by_cases hk : addr.to_weak ∈ sq.keeper_bound
        · rw [show allocate_execution_unit sq addr (some p)
              info.can_split = (some ⟨addr, info.can_split, true⟩, some p,
                [Event.cloneExecutor addr]) from
            by simp [allocate_execution_unit, hk]] at h
          rw [alloc_finish] at h
          cases hadd : add_input_packet sq addr p 1 with
          | error e => rw [hadd] at h; simp at h
          | ok o =>
            cases o with
            | none => rw [hadd] at h; simp at h
            | some pr2 =>
              obtain ⟨s2, evs2⟩ := pr2
              rw [hadd] at h
              simp at h
              obtain ⟨-, h2, -⟩ := h
              cases h2
              obtain ⟨bpend, bin, bout, bcap, bdup, bkeep, blive, bmgr⟩ :=
                add_ok_fields hadd
              obtain ⟨a0, rest, hql, hsq⟩ := get_packet_some hget
              have hpresent : alistLookup sq.packets_map addr.to_weak =
                  some rest := by
                subst hsq
                exact alistLookup_update_self _ hql
              obtain ⟨bwait, bkeys⟩ := add_ok_waiting_present hadd hpresent
              refine ⟨bdup.trans hdup, bwait.trans hwait,
                bkeep.trans hkeep, blive.trans hlive, bcap.trans hcap,
                bmgr.trans hmgr, bout.trans hout, by omega,
                fun w => (bkeys w).trans (hkeys w)⟩
        · rw [show allocate_execution_unit sq addr (some p)
              info.can_split = (some ⟨addr, info.can_split, false⟩, none,
                [Event.allocNewGroup addr (some p)]) from
            by simp [allocate_execution_unit, hk]] at h
          rw [alloc_finish] at h
          simp at h
          obtain ⟨-, h2, -⟩ := h
          cases h2
          exact ⟨hdup, hwait, hkeep, hlive, hcap, hmgr, hout, by omega,
            hkeys⟩

theorem dup_pass_effect {last : Option GenericExecutor} :
    ∀ (fuel : Nat) (s : WorkManager) (res : Option GenericExecutor)
      (s1 : WorkManager),
      duplication_pass fuel s last = .ok (res, s1) →
      quiet_effect s s1 ∧
      (∀ w0, s1.duplicable_executors.count w0 ≤
        s.duplicable_executors.count w0) := by
  intro fuel
  induction fuel with
  | zero =>
    intro s res s1 h
    rw [duplication_pass] at h
    simp at h
    obtain ⟨-, h2⟩ := h
    cases h2
    exact ⟨quiet_refl _, fun w0 => le_refl _⟩
  | succ n ih =>
    intro s res s1 h
    rw [duplication_pass] at h
    cases hdup : s.duplicable_executors with
    | nil =>
      rw [hdup] at h
      simp at h
      obtain ⟨-, h2⟩ := h
      cases h2
      exact ⟨quiet_refl _, fun w0 => le_of_eq (by rw [hdup])⟩
    | cons w rest =>
      rw [hdup] at h
      simp only at h
      have hquiet0 : quiet_effect s { s with duplicable_executors := rest } :=
        ⟨rfl, rfl, rfl, rfl, rfl, rfl, rfl, fun _ => rfl⟩
      have hrestle : ∀ w0 : WeakExecutorAddress,
          rest.count w0 ≤ (w :: rest).count w0 := by
        intro w0
        simp [List.count_cons]
      have hcnt : ∀ w0 : WeakExecutorAddress,
          (rest ++ [w]).count w0 = (w :: rest).count w0 := by
        intro w0
        simp [List.count_append, List.count_cons]
      cases hstr : get_strong { s with duplicable_executors := rest } w with
      | none =>
        rw [hstr] at h
        obtain ⟨hq, hc⟩ := ih _ _ _ h
        exact ⟨quiet_trans hquiet0 hq,
          fun w0 => le_trans (hc w0) (hrestle w0)⟩
      | some addr =>
        rw [hstr] at h
        simp only at h
        cases hmatch : (match last with
            | some e => decide (addr = e.address)
            | none => false) with
        | true =>
          rw [hmatch] at h
          simp only [if_true] at h
          by_cases hlen : (rest ++ [w]).length = 1
          · rw [if_pos hlen] at h
            simp at h
            obtain ⟨-, h2⟩ := h
            cases h2
            exact ⟨⟨rfl, rfl, rfl, rfl, rfl, rfl, rfl, fun _ => rfl⟩,
              fun w0 => le_of_eq (hcnt w0)⟩
          · rw [if_neg hlen] at h
            obtain ⟨hq, hc⟩ := ih _ _ _ h
            refine ⟨quiet_trans ⟨rfl, rfl, rfl, rfl, rfl, rfl, rfl,
              fun _ => rfl⟩ hq, fun w0 => ?_⟩
            calc s1.duplicable_executors.count w0
                ≤ (rest ++ [w]).count w0 := hc w0
            _ = (w :: rest).count w0 := hcnt w0
        | false =>
          rw [hmatch] at h
          rw [if_neg Bool.false_ne_true] at h
          cases halloc : alloc_executor { s with
              duplicable_executors := rest } addr with
          | error e => rw [halloc] at h; simp at h
          | ok tr =>
            obtain ⟨rex, s2, evs2⟩ := tr
            rw [halloc] at h
            obtain ⟨hdup2, hq2⟩ := alloc_effect halloc
            cases rex with
            | none =>
              simp only at h
              obtain ⟨hq, hc⟩ := ih _ _ _ h
              refine ⟨quiet_trans hquiet0 (quiet_trans hq2 hq),
                fun w0 => ?_⟩
              calc s1.duplicable_executors.count w0
                  ≤ s2.duplicable_executors.count w0 := hc w0
              _ = rest.count w0 := by rw [hdup2]
              _ ≤ (w :: rest).count w0 := hrestle w0
            | some ex =>
              simp at h
              obtain ⟨-, h2⟩ := h
              cases h2
              refine ⟨quiet_trans hquiet0 (quiet_trans hq2
                ⟨rfl, rfl, rfl, rfl, rfl, rfl, rfl, fun _ => rfl⟩),
                fun w0 => ?_⟩
              simp only
              exact le_of_eq (by rw [hdup2]; exact hcnt w0)

theorem add_executors_ok {s : WorkManager} {ty : Nat} {e : ExecutorType}
    {split : Bool} {s1 : WorkManager}
    (h : add_executors s ty e split = .ok s1) :
    alistLookup s.execution_managers_info ty = none ∧
    s1 = { s with
      execution_managers_info :=
        s.execution_managers_info ++ [(ty, ⟨e, split⟩)]
      waiting_addresses := s.waiting_addresses ++ [(ty, [])] } := by
  unfold add_executors at h
  cases hn : alistLookup s.execution_managers_info ty with
  | none =>
    rw [hn] at h
    simp at h
    exact ⟨rfl, h.symm⟩
  | some i =>
    rw [hn] at h
    simp at h

theorem fairness_effect {s : WorkManager}
    {r : Option (GenericExecutor × WorkManager)}
    (h : fairness_step s = .ok r) :
    (r = none ∧ popFirstWaiting s.waiting_addresses = none) ∨
    (∃ ex s1 a wl, r = some (ex, s1) ∧
      popFirstWaiting s.waiting_addresses = some (a, wl) ∧
      s1.waiting_addresses = wl ∧
      s1.keeper_bound = s.keeper_bound ∧
      s1.live_addresses = s.live_addresses ∧
      s1.cap = s.cap ∧
      s1.execution_managers_info = s.execution_managers_info ∧
      s1.packets_out = s.packets_out ∧
      s1.packets_in + s.pending_packets_count =
        s.packets_in + s1.pending_packets_count ∧
      (∀ w, (alistLookup s1.packets_map w).isSome =
        (alistLookup s.packets_map w).isSome) ∧
      (s1.duplicable_executors = s.duplicable_executors ∨
       s1.duplicable_executors =
         s.duplicable_executors ++ [a.to_weak])) := by
  unfold fairness_step at h
  cases hpop : popFirstWaiting s.waiting_addresses with
  | none =>
    rw [hpop] at h
    simp at h
    exact Or.inl ⟨h.symm, rfl⟩
  | some pr =>
    obtain ⟨a, wl⟩ := pr
    rw [hpop] at h
    simp only at h
    cases halloc : alloc_executor { s with waiting_addresses := wl } a with
    | error e => rw [halloc] at h; simp at h
    | ok tr =>
      obtain ⟨rex, s2, evs2⟩ := tr
      rw [halloc] at h
      obtain ⟨hdup2, hwait2, hkeep2, hlive2, hcap2, hmgr2, hout2, hbal2,
        hkeys2⟩ := alloc_effect halloc
      cases rex with
      | none => simp at h
      | some ex0 =>
        simp only at h
        by_cases hcs : ex0.can_split = true
        · rw [if_pos hcs] at h
          simp at h
          refine Or.inr ⟨ex0, _, a, wl, h.symm, rfl, hwait2, hkeep2,
            hlive2, hcap2, hmgr2, hout2, by dsimp only at hbal2 ⊢; omega,
            hkeys2, Or.inr (by rw [hdup2])⟩
        · rw [if_neg hcs] at h
          simp at h
          refine Or.inr ⟨ex0, s2, a, wl, h.symm, rfl, hwait2, hkeep2,
            hlive2, hcap2, hmgr2, hout2, by dsimp only at hbal2 ⊢; omega,
            hkeys2, Or.inl hdup2⟩

theorem tracked_of_quiet_counts {s s1 : WorkManager}
    (hw : s1.waiting_addresses = s.waiting_addresses)
    (hk : ∀ w, (alistLookup s1.packets_map w).isSome =
      (alistLookup s.packets_map w).isSome)
    (hc : ∀ w, s1.duplicable_executors.count w ≤
      s.duplicable_executors.count w)
    (ht : tracked_once s) : tracked_once s1 := by
  intro w
  obtain ⟨h1, h2⟩ := ht w
  have hwc : wait_count s1 w = wait_count s w := by
    rw [wait_count, hw, wait_count]
  have hdc : dup_count s1 w ≤ dup_count s w := hc w
  constructor
  · rw [hwc]
    omega
  · intro hge
    rw [hk w]
    apply h2
    rw [hwc] at hge
    omega

theorem tracked_add {s : WorkManager} {a : ExecutorAddress} {p : Packet}
    {fuel : Nat} {s1 : WorkManager} {evs : List Event}
    (h : add_input_packet s a p fuel = .ok (some (s1, evs)))
    (ht : tracked_once s) : tracked_once s1 := by
  have hdup : s1.duplicable_executors = s.duplicable_executors :=
    (add_ok_fields h).2.2.2.2.1
  cases hp : alistLookup s.packets_map a.to_weak with
  | some q0 =>
    obtain ⟨hw, hk⟩ := add_ok_waiting_present h hp
    exact tracked_of_quiet_counts hw hk (fun w => le_of_eq (by rw [hdup]))
      ht
  | none =>
    obtain ⟨wq, hwq, hw⟩ := add_ok_create h hp
    have hkeys := add_ok_keys h
    have haw : ExecutorAddress.to_weak a = a := rfl
    intro w
    obtain ⟨h1, h2⟩ := ht w
    have hwc : wait_count s1 w =
        wait_count s w + (if a = w then 1 else 0) := by
      rw [wait_count, hw, wait_count]
      exact waitingCount_update_push a w hwq
    have hdc : dup_count s1 w = dup_count s w := by
      rw [dup_count, hdup, dup_count]
    by_cases hwa : w = a
    · subst hwa
      have hzero : dup_count s w + wait_count s w = 0 := by
        by_contra hnz
        have : (alistLookup s.packets_map w).isSome = true := h2 (by omega)
        rw [haw] at hp
        rw [hp] at this
        simp at this
      constructor
      · rw [hwc, hdc]
        simp
        omega
      · intro _
        rw [(hkeys w).2 (Or.inr haw.symm)]
    · have hne : ¬ a = w := fun hh => hwa hh.symm
      constructor
      · rw [hwc, hdc, if_neg hne]
        omega
      · intro hge
        rw [hwc, if_neg hne] at hge
        rw [hdc] at hge
        have hkey := h2 hge
        exact ((hkeys w).2 (Or.inl hkey))

theorem tracked_fairness {s : WorkManager}
    {r : Option (GenericExecutor × WorkManager)}
    (h : fairness_step s = .ok r) (ht : tracked_once s) :
    ∀ ex s1, r = some (ex, s1) → tracked_once s1 := by
  intro ex s1 hr
  subst hr
  rcases fairness_effect h with ⟨hcontra, -⟩ | ⟨ex0, s2, a, wl, heq, hpop,
    hwait, hkeep, hlive, hcap, hmgr, hout, hbal, hkeys, hdup⟩
  · simp at hcontra
  · simp at heq
    obtain ⟨-, heq2⟩ := heq
    cases heq2
    have haw : ExecutorAddress.to_weak a = a := rfl
    intro w
    obtain ⟨h1, h2⟩ := ht w
    have hwc : wait_count s w = wait_count s1 w +
        (if a = w then 1 else 0) := by
      rw [wait_count, wait_count, hwait]
      exact waitingCount_pop w hpop
    rcases hdup with hd | hd
    · have hdc : dup_count s1 w = dup_count s w := by
        rw [dup_count, hd, dup_count]
      constructor
      · rw [hdc]
        omega
      · intro hge
        rw [hkeys w]
        apply h2
        rw [hdc] at hge
        omega
    · have hdc : dup_count s1 w = dup_count s w +
          (if a = w then 1 else 0) := by
        rw [dup_count, hd, dup_count, List.count_append]
        by_cases hx : a = w <;>
          simp [ExecutorAddress.to_weak, hx, List.count_cons]
      by_cases hwa : w = a
      · subst hwa
        simp at hwc hdc
        refine ⟨by omega, fun hge => ?_⟩
        rw [hkeys w]
        exact h2 (by omega)
      · have hne : ¬ a = w := fun hh => hwa hh.symm
        rw [if_neg hne] at hwc hdc
        refine ⟨by omega, fun hge => ?_⟩
        rw [hkeys w]
        exact h2 (by omega)

theorem find_work_iter_effect {dupFuel : Nat} {s : WorkManager}
    {last : Option GenericExecutor} {o : WorkOutcome} {s1 : WorkManager}
    {evs : List Event}
    (h : find_work_iter dupFuel s last = .ok (o, s1, evs)) :
    (counters_balanced s → counters_balanced s1) ∧
    (∀ w, (alistLookup s1.packets_map w).isSome =
      (alistLookup s.packets_map w).isSome) ∧
    (tracked_once s → tracked_once s1) := by
  unfold find_work_iter at h
  by_cases hz : s.pending_packets_count = 0
  · rw [if_pos hz] at h
    simp at h
    obtain ⟨-, h2, -⟩ := h
    cases h2
    exact ⟨id, fun w => rfl, id⟩
  · rw [if_neg hz] at h
    cases hloc : (match last with
        | none => none
        | some e => get_packet_from_addr s e.address) with
    | some pr =>
      obtain ⟨p, sq⟩ := pr
      rw [hloc] at h
      simp at h
      obtain ⟨-, h2, -⟩ := h
      cases h2
      have hget : ∃ e, last = some e ∧
          get_packet_from_addr s e.address = some (p, sq) := by
        cases last with
        | none => simp at hloc
        | some e => exact ⟨e, rfl, by simpa using hloc⟩
      obtain ⟨e, -, hg⟩ := hget
      obtain ⟨gpend, gin, gout, gcap, gdup, gwait, gkeep, glive, gmgr,
        gkeys⟩ := get_packet_fields hg
      refine ⟨?_, ?_, ?_⟩
      · intro hb
        rw [counters_balanced] at hb ⊢
        dsimp only
        have hpos : 0 < s.pending_packets_count := Nat.pos_of_ne_zero hz
        omega
      · intro w
        exact gkeys w
      · exact tracked_of_quiet_counts gwait gkeys
          (fun w => le_of_eq (by rw [gdup]))
    | none =>
      rw [hloc] at h
      cases hdp : duplication_pass dupFuel s last with
      | error e => rw [hdp] at h; simp at h
      | ok pr =>
        obtain ⟨ro, sd⟩ := pr
        rw [hdp] at h
        obtain ⟨hq, hc⟩ := dup_pass_effect _ _ _ _ hdp
        obtain ⟨qw, qk, ql, qc, qm, qo, qb, qkeys⟩ := hq
        cases ro with
        | some ex =>
          simp at h
          obtain ⟨-, h2, -⟩ := h
          cases h2
          refine ⟨?_, qkeys, tracked_of_quiet_counts qw qkeys hc⟩
          intro hb
          rw [counters_balanced] at hb ⊢
          omega
        | none =>
          simp only at h
          cases hfs : fairness_step sd with
          | error e => rw [hfs] at h; simp at h
          | ok rr =>
            rw [hfs] at h
            cases rr with
            | none =>
              simp at h
              obtain ⟨-, h2, -⟩ := h
              cases h2
              refine ⟨?_, qkeys, tracked_of_quiet_counts qw qkeys hc⟩
              intro hb
              rw [counters_balanced] at hb ⊢
              omega
            | some pr2 =>
              obtain ⟨ex, sf⟩ := pr2
              simp at h
              obtain ⟨-, h2, -⟩ := h
              cases h2
              have htd : tracked_once s → tracked_once sd :=
                tracked_of_quiet_counts qw qkeys hc
              have htf : tracked_once sd → tracked_once s1 := fun ht =>
                tracked_fairness hfs ht ex s1 rfl
              rcases fairness_effect hfs with ⟨hr, -⟩ | ⟨ex0, sf0, a, wl,
                heq, -, -, -, -, -, -, houtf, hbalf, hkeysf, -⟩
              · simp at hr
              · simp at heq
                obtain ⟨-, heq2⟩ := heq
                cases heq2
                refine ⟨?_, fun w => (hkeysf w).trans (qkeys w),
                  fun ht => htf (htd ht)⟩
                intro hb
                rw [counters_balanced] at hb ⊢
                omega

theorem balanced_step {s s1 : WorkManager} (h : WMStep s s1) :
    counters_balanced s → counters_balanced s1 := by
  cases h with
  | register ty e split s1x hreg =>
    obtain ⟨-, hs1⟩ := add_executors_ok hreg
    subst hs1
    intro hb
    exact hb
  | add a p fuel s1x evs hadd =>
    obtain ⟨hpend, hin, hout, -, -, -, -, -⟩ := add_ok_fields hadd
    intro hb
    rw [counters_balanced] at hb ⊢
    omega
  | work dupFuel last o s1x evs hw =>
    exact (find_work_iter_effect hw).1
  | keeperSet ks => exact id
  | liveSet ls => exact id

theorem tracked_step {s s1 : WorkManager} (h : WMStep s s1) :
    tracked_once s → tracked_once s1 := by
  cases h with
  | register ty e split s1x hreg =>
    obtain ⟨-, hs1⟩ := add_executors_ok hreg
    subst hs1
    intro ht w
    obtain ⟨h1, h2⟩ := ht w
    have hwc : wait_count { s with
        execution_managers_info :=
          s.execution_managers_info ++ [(ty, ⟨e, split⟩)]
        waiting_addresses := s.waiting_addresses ++ [(ty, [])] } w =
          wait_count s w := by
      rw [wait_count, wait_count]
      exact waitingCount_append_empty _ _ _
    constructor
    · rw [hwc]
      exact h1
    · intro hge
      rw [hwc] at hge
      exact h2 hge
  | add a p fuel s1x evs hadd => exact tracked_add hadd
  | work dupFuel last o s1x evs hw =>
    exact (find_work_iter_effect hw).2.2
  | keeperSet ks => exact id
  | liveSet ls => exact id

theorem balanced_new (capacity : Nat) :
    counters_balanced (WorkManager.new capacity) := rfl

theorem tracked_new (capacity : Nat) :
    tracked_once (WorkManager.new capacity) := by
  intro w
  constructor
  · simp [dup_count, wait_count, waitingCount, WorkManager.new]
  · intro hge
    simp [dup_count, wait_count, waitingCount, WorkManager.new] at hge

theorem reachable_balanced {capacity : Nat} {s : WorkManager}
    (h : WMReachable capacity s) : counters_balanced s := by
  induction h with
  | refl => exact balanced_new capacity
  | tail hsteps hstep ih => exact balanced_step hstep ih

theorem reachable_tracked {capacity : Nat} {s : WorkManager}
    (h : WMReachable capacity s) : tracked_once s := by
  induction h with
  | refl => exact tracked_new capacity
  | tail hsteps hstep ih => exact tracked_step hstep ih

theorem alistLookup_remove_self [DecidableEq κ] (m : List (κ × α))
    (k : κ) : alistLookup (alistRemove m k) k = none := by
  induction m with
  | nil => rfl
  | cons kv rest ih =>
    obtain ⟨k1, v1⟩ := kv
    by_cases hk : k1 = k
    · simpa [alistRemove, hk] using ih
    · simpa [alistRemove, List.filter, hk, alistLookup] using ih

/-- C1: along every run of registrations, add_input_packet calls, find_work
loop iterations and environment actions, the number of packets fed through
add_input_packet minus the number of packets returned by find_work equals
pending_packets_count at every observation point; in particular the packet
movements of alloc_executor (the MultipleCommonPacketUnits pop and its
possible re-enqueue) leave the balance unchanged. -/
theorem claim_C1 :
    (∀ capacity s, WMReachable capacity s →
      s.packets_in = s.packets_out + s.pending_packets_count) ∧
    (∀ s a r s1 evs, alloc_executor s a = .ok (r, s1, evs) →
      counters_balanced s → counters_balanced s1) := by
  constructor
  · intro capacity s hr
    exact reachable_balanced hr
  · intro s a r s1 evs h hb
    obtain ⟨-, -, -, -, -, -, hout, hbal, -⟩ := alloc_effect h
    rw [counters_balanced] at hb ⊢
    omega

/-- C1 witness: the balance evaluated on a freshly constructed manager and
across a concrete opener-consuming alloc_executor call. -/
theorem claim_C1_witness :
    (WorkManager.new 4).packets_in =
      (WorkManager.new 4).packets_out +
        (WorkManager.new 4).pending_packets_count ∧
    counters_balanced (set_queue wmC2after adr0.to_weak []) :=
  ⟨claim_C1.1 4 (WorkManager.new 4) Relation.ReflTransGen.refl,
   claim_C1.2 wmC2after adr0 (some ⟨adr0, true, false⟩)
     (set_queue wmC2after adr0.to_weak [])
     [Event.allocNewGroup adr0 (some 5)] rfl rfl⟩

/-- C5: in every reachable state each weak address occurs at most once in
duplicable_executors; and when the only entry is the worker's own address,
the duplication pass leaves it in place and allocates nothing. -/
theorem claim_C5 :
    (∀ capacity s w, WMReachable capacity s → dup_count s w ≤ 1) ∧
    (∀ fuel s (e : GenericExecutor), e.address ∈ s.live_addresses →
      s.duplicable_executors = [e.address.to_weak] →
      duplication_pass (fuel + 1) s (some e) = .ok (none, s)) := by
  constructor
  · intro capacity s w hr
    have ht := reachable_tracked hr
    have h1 := (ht w).1
    omega
  · intro fuel s e hlive hdup
    rw [duplication_pass, hdup]
    simp only
    rw [show get_strong { s with duplicable_executors := [] }
        e.address.to_weak = some e.address from
      by simp [get_strong, ExecutorAddress.to_weak, hlive]]
    simp only [decide_eq_true_eq]
    rw [if_pos trivial]
    rw [if_pos (by simp)]
    rw [show ([] ++ [e.address.to_weak]) = s.duplicable_executors from
      by rw [hdup]; rfl]

/-- C5 witness: the multiplicity bound on a fresh manager and the
own-address duplication pass evaluated on the sample state. -/
theorem claim_C5_witness :
    dup_count (WorkManager.new 4) adr0 ≤ 1 ∧
    duplication_pass 1 wmOwn (some ex4) = .ok (none, wmOwn) :=
  ⟨claim_C5.1 4 (WorkManager.new 4) adr0 Relation.ReflTransGen.refl,
   claim_C5.2 0 wmOwn ex4 (by decide) (by decide)⟩

/-- C6: an input-queue entry is created exactly by the first packet
arriving for its address through add_input_packet; find_work iterations
and registration never create or destroy an entry; and the spec-modelled
destruction removes a present entry exactly when the queue is drained and
no executor references the address. -/
theorem claim_C6 :
    (∀ s a (p : Packet) fuel s1 evs,
      add_input_packet s a p fuel = .ok (some (s1, evs)) →
      ∀ w, (alistLookup s1.packets_map w).isSome = true ↔
        ((alistLookup s.packets_map w).isSome = true ∨ w = a.to_weak)) ∧
    (∀ dupFuel s last o s1 evs,
      find_work_iter dupFuel s last = .ok (o, s1, evs) →
      ∀ w, (alistLookup s1.packets_map w).isSome =
        (alistLookup s.packets_map w).isSome) ∧
    (∀ s ty e split s1, add_executors s ty e split = .ok s1 →
      s1.packets_map = s.packets_map) ∧
    (∀ s w q, alistLookup s.packets_map w = some q →
      (alistLookup (retire_address s w).packets_map w = none ↔
        (q = [] ∧ w ∉ s.keeper_bound))) := by
  refine ⟨?_, ?_, ?_, ?_⟩
  · intro s a p fuel s1 evs h w
    exact add_ok_keys h w
  · intro dupFuel s last o s1 evs h w
    exact (find_work_iter_effect h).2.1 w
  · intro s ty e split s1 h
    obtain ⟨-, hs1⟩ := add_executors_ok h
    subst hs1
    rfl
  · intro s w q hq
    rw [retire_address, hq]
    simp only
    by_cases hcond : q = [] ∧ w ∉ s.keeper_bound
    · rw [if_pos hcond]
      simp only
      rw [alistLookup_remove_self]
      simp [hcond]
    · rw [if_neg hcond]
      simp [hq, hcond]

/-- C6 witness: creation on first arrival and the modelled destruction
evaluated on the sample states. -/
theorem claim_C6_witness :
    ((alistLookup wmC2after.packets_map adr0).isSome = true ↔
      ((alistLookup wmMCPU.packets_map adr0).isSome = true ∨
        adr0 = adr0.to_weak)) ∧
    (alistLookup (retire_address wmC4s1 adr0).packets_map adr0 = none ↔
      (([] : List (ExecutorAddress × Packet)) = [] ∧
        adr0 ∉ wmC4s1.keeper_bound)) :=
  ⟨claim_C6.1 wmMCPU adr0 5 1 wmC2after [Event.notifyAll] rfl adr0,
   claim_C6.2.2.2 wmC4s1 adr0 [] (by decide)⟩
